import Mathlib

/-!
Verification of the irclog2html repository against its natural-language
specification.  The Python sources are embedded shallowly: strings are
`List Char`, regular-expression matching is implemented by explicit scanning
functions that follow the backtracking behaviour of the concrete patterns,
Python exceptions are modelled with `Except`, and the filesystem is an
explicit oracle.
-/

namespace Irclog

/-- Whitespace class of the Python regex escape for spaces
(space, tab, newline, carriage return, vertical tab, form feed). -/
def pyIsSpace (c : Char) : Bool :=
  c = ' ' || c = '\t' || c = '\n' || c = '\r' || c = '\x0b' || c = '\x0c'

/-- String prefix test, the Python `startswith`. -/
def pfx (p l : List Char) : Bool :=
  match p with
  | [] => true
  | a :: as =>
    match l with
    | [] => false
    | b :: bs => if a = b then pfx as bs else false

/-- Characterisation of `pfx` as list prefixing. -/
theorem pfx_iff (p l : List Char) : pfx p l = true ↔ p <+: l := by
  induction p generalizing l with
  | nil => simp [pfx]
  | cons a as ih =>
    cases l with
    | nil => simp [pfx]
    | cons b bs =>
      simp only [pfx, List.cons_prefix_cons]
      by_cases hab : a = b
      · simp [hab, ih]
      · simp [hab]

/-!
## Line classification (src/irclog2html.py, `LogParser.__iter__`)

Events carried by the parser.  The source never actually constructs a
NICKCHANGE event: at the nick-change branch it executes
`yield time, self.NICKCHANGE, (line, oldnick, newnick)` although the match
groups were bound to `nick_old` and `nick_new`, so the names `oldnick` and
`newnick` are unbound and Python raises `NameError`.  That runtime failure is
modelled by `PyErr.nameError`.
-/

inductive Event where
  | comment (nick text : List Char)
  | action (line : List Char)
  | join (line : List Char)
  | part (line : List Char)
  | nickchange (line oldnick newnick : List Char)
  | server (line : List Char)
  | other (line : List Char)
deriving DecidableEq, Repr

inductive PyErr where
  | nameError
deriving DecidableEq, Repr

/-- Scanner for the nick pattern, anchored match of a left angle bracket,
a shortest group of any characters, a right angle bracket and one whitespace
character.  `acc` holds the group read so far (reversed).  Returns the group
and the text after the whitespace character, exactly as the source takes
`m.group(1)` and `line[len(m.group(0)):]`. -/
def nickScan (acc : List Char) : List Char → Option (List Char × List Char)
  | '>' :: c :: rest =>
      if pyIsSpace c then some (acc.reverse, rest)
      else nickScan ('>' :: acc) (c :: rest)
  | c :: rest => if c = '\n' then none else nickScan (c :: acc) rest
  | [] => none

/-- Match of `NICK_REGEXP`, the pattern `<nick>` followed by whitespace at the
start of the line. -/
def nickMatch : List Char → Option (List Char × List Char)
  | '<' :: rest => nickScan [] rest
  | _ => none

/-- Substring containment, the Python `in` operator on strings. -/
def containsSub (needle : List Char) : List Char → Bool
  | [] => needle.isEmpty
  | c :: rest => pfx needle (c :: rest) || containsSub needle rest

/-- Separator of the nick-change pattern with the `are` alternative. -/
def sepAre : List Char := " are now known as ".data

/-- Separator of the nick-change pattern with the `is` alternative. -/
def sepIs : List Char := " is now known as ".data

/-- Scanner for the body of `NICK_CHANGE_REGEXP` after the prefix: a shortest
group, one of the separators, and a greedy group running to the end of the
line (a dot never crosses a newline). -/
def findKnownAs (acc : List Char) : List Char → Option (List Char × List Char)
  | [] => none
  | c :: rest =>
      if pfx sepAre (c :: rest) then
        some (acc.reverse, ((c :: rest).drop sepAre.length).takeWhile (fun d => d ≠ '\n'))
      else if pfx sepIs (c :: rest) then
        some (acc.reverse, ((c :: rest).drop sepIs.length).takeWhile (fun d => d ≠ '\n'))
      else if c = '\n' then none
      else findKnownAs (c :: acc) rest

/-- Match of `NICK_CHANGE_REGEXP`: three stars or three dashes, a space, then
the old nick, `are` or `is`, `now known as`, and the new nick. -/
def nickChangeMatch (line : List Char) : Option (List Char × List Char) :=
  if pfx "*** ".data line then findKnownAs [] (line.drop 4)
  else if pfx "--- ".data line then findKnownAs [] (line.drop 4)
  else none

/-- Classification of one line after timestamp stripping, direct embedding of
the branch cascade in `LogParser.__iter__`.  The nick-change branch returns
`PyErr.nameError` because the source yields the unbound names `oldnick` and
`newnick` there. -/
def classify (line : List Char) : Except PyErr Event :=
  match nickMatch line with
  | some (nick, text) => .ok (.comment nick text)
  | none =>
      bif pfx "* ".data line then .ok (.action line)
      else bif pfx "*** ".data line ||
               (pfx "--> ".data line && containsSub "joined".data line) then
        .ok (.join line)
      else bif pfx "*** ".data line ||
               (pfx "--> ".data line &&
                 (containsSub "left".data line || containsSub "quit".data line)) then
        .ok (.part line)
      else
        match nickChangeMatch line with
        | some _ => .error .nameError
        | none =>
            bif pfx "*** ".data line || pfx "--- ".data line then
              .ok (.server line)
            else .ok (.other line)

/-!
Timestamp stripping (`TIME_REGEXP`).  The pattern is an optional opening
bracket, an optional date part of the form YYYY-MM-DDT, hours and minutes,
optional seconds, an optional closing bracket and at least one space.  The
implementation below is deterministic; it agrees with the backtracking
engine because every optional part that is present starts with a character
the fallback continuation could not accept (a digit where a colon is needed,
an opening bracket where a digit is needed, a colon where a bracket or space
is needed).
-/

/-- Two decimal digits. -/
def twoDigits : List Char → Option (List Char × List Char)
  | a :: b :: rest => if a.isDigit && b.isDigit then some ([a, b], rest) else none
  | _ => none

/-- Four decimal digits. -/
def fourDigits : List Char → Option (List Char × List Char)
  | a :: b :: c :: d :: rest =>
      if a.isDigit && b.isDigit && c.isDigit && d.isDigit then
        some ([a, b, c, d], rest)
      else none
  | _ => none

/-- Date part of the timestamp, YYYY-MM-DDT. -/
def dateAttempt (l : List Char) : Option (List Char × List Char) :=
  match fourDigits l with
  | none => none
  | some (y, r1) =>
      match r1 with
      | '-' :: r2 =>
          match twoDigits r2 with
          | none => none
          | some (mo, r3) =>
              match r3 with
              | '-' :: r4 =>
                  match twoDigits r4 with
                  | none => none
                  | some (d, r5) =>
                      match r5 with
                      | 'T' :: r6 => some (y ++ '-' :: mo ++ '-' :: d ++ ['T'], r6)
                      | _ => none
              | _ => none
      | _ => none

/-- Clock part of the timestamp, HH:MM with optional :SS. -/
def clockAttempt (l : List Char) : Option (List Char × List Char) :=
  match twoDigits l with
  | none => none
  | some (h, r1) =>
      match r1 with
      | ':' :: r2 =>
          match twoDigits r2 with
          | none => none
          | some (mi, r3) =>
              match r3 with
              | ':' :: r4 =>
                  match twoDigits r4 with
                  | some (s, r5) => some (h ++ ':' :: mi ++ ':' :: s, r5)
                  | none => some (h ++ ':' :: mi, r3)
              | _ => some (h ++ ':' :: mi, r3)
      | _ => none

/-- One or more literal spaces, greedy. -/
def spaces1 : List Char → Option (List Char)
  | ' ' :: rest => some (rest.dropWhile (fun c => c = ' '))
  | _ => none

/-- Full attempt of `TIME_REGEXP`; on success returns the captured time group
and the remainder of the line. -/
def timeAttempt (line : List Char) : Option (List Char × List Char) :=
  let core : List Char → Option (List Char × List Char) := fun l =>
    match dateAttempt l with
    | some (d, r) =>
        match clockAttempt r with
        | some (t, r2) => some (d ++ t, r2)
        | none => none
    | none => clockAttempt l
  let finish : List Char × List Char → Option (List Char × List Char) := fun (t, r) =>
    let r2 := match r with
      | ']' :: rr => rr
      | _ => r
    match spaces1 r2 with
    | some r3 => some (t, r3)
    | none => none
  match line with
  | '[' :: rest =>
      match core rest with
      | some tr => finish tr
      | none => none
  | _ =>
      match core line with
      | some tr => finish tr
      | none => none

/-- Timestamp stripping step of `LogParser.__iter__`: on a match the time is
remembered and the matched prefix removed, otherwise the time is absent. -/
def stripTime (line : List Char) : Option (List Char) × List Char :=
  match timeAttempt line with
  | some (t, rest) => (some t, rest)
  | none => (none, line)

/-- Processing of one non-blank, terminator-stripped line: timestamp
stripping followed by classification. -/
def parseLine (line : List Char) : Except PyErr (Option (List Char) × Event) :=
  let (t, rest) := stripTime line
  (classify rest).map (fun e => (t, e))

/-!
### Claims C1 to C3
-/

/-- C1.  At classification step 6 the source executes
`yield time, self.NICKCHANGE, (line, oldnick, newnick)` where `oldnick` and
`newnick` are unbound names, so the line `--- alice is now known as alice2`,
which matches the nick-change pattern and reaches step 6, makes the classifier
raise `NameError` instead of emitting a NickChange event carrying the matched
names.  Moreover the line `*** alice is now known as alice2` used by the claim
never reaches step 6: step 4 classifies every line starting with
three stars and a space as Join. -/
theorem c1_nickchange_raises_nameError :
    classify ("--- alice is now known as alice2".data) = .error .nameError ∧
    classify ("*** alice is now known as alice2".data) =
      .ok (.join ("*** alice is now known as alice2".data)) := by
  constructor <;> rfl

/-- C2.  Classification is not total: the non-empty, terminator-stripped line
`--- marius is now known as mg` reaches the nick-change branch, where the
classifier raises `NameError`, so no Event is produced for it. -/
theorem c2_classification_not_total :
    ("--- marius is now known as mg".data ≠ ([] : List Char)) ∧
    parseLine ("--- marius is now known as mg".data) = .error .nameError := by
  constructor
  · intro h
    cases h
  · rfl

/-- Helper: the full reduction of `classify` on a line starting with three
stars and a space. -/
theorem classify_star (t : List Char) :
    classify ("*** ".data ++ t) = .ok (.join ("*** ".data ++ t)) := rfl

/-- Helper: the reduction of `classify` on a line starting with an arrow
prefix, leaving only the joined/left/quit tests. -/
theorem classify_arrow (t : List Char) :
    classify ("--> ".data ++ t) =
      (bif containsSub "joined".data ("--> ".data ++ t) then
        .ok (.join ("--> ".data ++ t))
      else bif containsSub "left".data ("--> ".data ++ t) ||
               containsSub "quit".data ("--> ".data ++ t) then
        .ok (.part ("--> ".data ++ t))
      else .ok (.other ("--> ".data ++ t))) := rfl

/-- C3.  For every line: a line starting with three stars and a space is
classified Join whatever its content; a line starting with the arrow prefix
is classified Join when it contains `joined`, and Part when it does not
contain `joined` but contains `left` or `quit`; and no line starting with
three stars and a space is ever classified Part. -/
theorem c3_join_part_precedence (line : List Char) :
    (pfx "*** ".data line = true → classify line = .ok (.join line)) ∧
    (pfx "--> ".data line = true → containsSub "joined".data line = true →
       classify line = .ok (.join line)) ∧
    (pfx "--> ".data line = true → containsSub "joined".data line = false →
       (containsSub "left".data line = true ∨ containsSub "quit".data line = true) →
       classify line = .ok (.part line)) ∧
    (pfx "*** ".data line = true → classify line ≠ .ok (.part line)) := by
  refine ⟨?_, ?_, ?_, ?_⟩
  · intro h
    obtain ⟨t, ht⟩ := (pfx_iff _ _).mp h
    subst ht
    exact classify_star t
  · intro h hj
    obtain ⟨t, ht⟩ := (pfx_iff _ _).mp h
    subst ht
    rw [classify_arrow, hj]
    rfl
  · intro h hj hlq
    obtain ⟨t, ht⟩ := (pfx_iff _ _).mp h
    subst ht
    rw [classify_arrow, hj]
    rcases hlq with hl | hq
    · rw [hl]
      rfl
    · rw [hq, Bool.or_true]
      rfl
  · intro h
    obtain ⟨t, ht⟩ := (pfx_iff _ _).mp h
    subst ht
    rw [classify_star t]
    intro hcontra
    cases hcontra

/-- Witness for C3 at the concrete lines of the claim. -/
theorem c3_witness :
    classify ("*** alice has joined #chan".data) =
      .ok (.join ("*** alice has joined #chan".data)) ∧
    classify ("--> bob has quit".data) =
      .ok (.part ("--> bob has quit".data)) := by
  constructor
  · exact (c3_join_part_precedence _).1 (by decide)
  · exact (c3_join_part_precedence _).2.2.1 (by decide) (by decide) (Or.inr (by decide))

/-!
## URL linkification (src/irclog2html.py, `createlinks`)

The source runs `URL_REGEXP.sub` with the replacement string
`<a href="\0">\0</a>`.  In a Python replacement template the escape \0 is the
octal escape for the character with code 0, not a reference to the whole
match (that would be spelled with a named group zero reference), so the
substituted text is a constant containing two NUL characters.
-/

/-- Replacement text produced for every URL match: the template with each
octal \0 escape decoded to the NUL character. -/
def urlReplacement : List Char :=
  "<a href=\"".data ++ [Char.ofNat 0] ++ "\">".data ++ [Char.ofNat 0] ++ "</a>".data

/-- Attempt of one alternative of `URL_REGEXP` at the current position:
the scheme, the literal separator, then a greedy run of non-whitespace.
Returns the matched text and the remainder after it. -/
def tryScheme (s l : List Char) : Option (List Char × List Char) :=
  let p := s ++ "://".data
  if pfx p l then
    let rest := l.drop p.length
    some (p ++ rest.takeWhile (fun c => !pyIsSpace c),
          rest.dropWhile (fun c => !pyIsSpace c))
  else none

/-- Match of `URL_REGEXP` at the current position, alternatives tried in the
order of the pattern. -/
def matchUrlAt (l : List Char) : Option (List Char × List Char) :=
  match tryScheme "http".data l with
  | some r => some r
  | none =>
  match tryScheme "https".data l with
  | some r => some r
  | none =>
  match tryScheme "ftp".data l with
  | some r => some r
  | none =>
  match tryScheme "gopher".data l with
  | some r => some r
  | none => tryScheme "news".data l

/-- Substitution scan of `re.sub`: at each position try a match; on a match
emit the replacement and continue after it, otherwise keep the character and
advance.  The fuel argument only serves termination: every step consumes at
least one character (a match is at least seven characters long), so fuel
equal to the length of the text is never exhausted. -/
def subUrlsF : ℕ → List Char → List Char
  | 0, l => l
  | _ + 1, [] => []
  | fuel + 1, c :: rest =>
      match matchUrlAt (c :: rest) with
      | some (_, after) => urlReplacement ++ subUrlsF fuel after
      | none => c :: subUrlsF fuel rest

/-- The `createlinks` function of the source. -/
def createlinks (l : List Char) : List Char := subUrlsF l.length l

/-!
### Claim C5
-/

/-- C5.  `createlinks` does not wrap a URL in a hyperlink to itself: because
the replacement template uses the octal escape \0 instead of a reference to
the match, every URL is replaced by an anchor whose href attribute and link
text are a single NUL character. -/
theorem c5_createlinks_inserts_nul :
    createlinks ("see http://example.com/".data) =
      ("see <a href=\"\x00\">\x00</a>".data) ∧
    createlinks ("see http://example.com/".data) ≠
      ("see <a href=\"http://example.com/\">http://example.com/</a>".data) := by
  constructor
  · rfl
  · decide

/-!
## Colour choice (src/irclog2html.py, `ColourChooser.choose`)

The magnitude formula and the channel computation are embedded over the
rationals; Python float arithmetic on these small dyadic-close values is
modelled by exact rational arithmetic, and Python `int()` truncation toward
zero by `pyInt`.
-/

/-- Magnitude formula of `choose`:
`m = rgbmin + (rgbmax - rgbmin) * float(n - i) / n`. -/
def mval (rgbmin rgbmax : ℚ) (i n : ℕ) : ℚ :=
  rgbmin + (rgbmax - rgbmin) * ((n : ℚ) - (i : ℚ)) / (n : ℚ)

/-- Python `int()` truncation toward zero. -/
def pyInt (q : ℚ) : ℤ := if 0 ≤ q then ⌊q⌋ else ⌈q⌉

/-- Default hue table `[(a,b,b),(b,a,b),(b,b,a),(a,a,b),(a,b,a),(b,a,a)]`
with `a = 0.95` and `b = 0.5`, indexed as `self.rgb[i % len(self.rgb)]`. -/
def hue (i : ℕ) : ℚ × ℚ × ℚ :=
  match i % 6 with
  | 0 => (19/20, 1/2, 1/2)
  | 1 => (1/2, 19/20, 1/2)
  | 2 => (1/2, 1/2, 19/20)
  | 3 => (19/20, 19/20, 1/2)
  | 4 => (19/20, 1/2, 19/20)
  | _ => (1/2, 19/20, 19/20)

/-- Channels of `choose(i, n)` with the default construction parameters
(rgbmin 240, rgbmax 125): an `n` of zero is replaced by one, then each
channel is the truncation of the hue component times the magnitude. -/
def chooseChannels (i n0 : ℕ) : ℤ × ℤ × ℤ :=
  let n := if n0 = 0 then 1 else n0
  let m := mval 240 125 i n
  (pyInt ((hue i).1 * m), pyInt ((hue i).2.1 * m), pyInt ((hue i).2.2 * m))

/-- Hexadecimal digit character for a value below sixteen. -/
def hexDigit (k : ℕ) : Char :=
  if k < 10 then Char.ofNat (48 + k) else Char.ofNat (87 + k)

/-- Two-digit lowercase hexadecimal rendering, the `%02x` format for values
below 256 (the assertions in `choose` guarantee that range before this
formatting runs). -/
def hex2 (k : ℕ) : List Char := [hexDigit (k / 16 % 16), hexDigit (k % 16)]

/-- The `choose` method: the assertions `0 <= channel < 256` are modelled by
returning `none` when violated, otherwise the `#rrggbb` string is built. -/
def choose (i n0 : ℕ) : Option (List Char) :=
  if 0 ≤ (chooseChannels i n0).1 ∧ (chooseChannels i n0).1 < 256 ∧
     0 ≤ (chooseChannels i n0).2.1 ∧ (chooseChannels i n0).2.1 < 256 ∧
     0 ≤ (chooseChannels i n0).2.2 ∧ (chooseChannels i n0).2.2 < 256 then
    some ('#' :: (hex2 (chooseChannels i n0).1.toNat ++
                  hex2 (chooseChannels i n0).2.1.toNat ++
                  hex2 (chooseChannels i n0).2.2.toNat))
  else none

/-- Lowercase hexadecimal digit class. -/
def isLowerHexDigit (c : Char) : Bool :=
  ('0' ≤ c && c ≤ '9') || ('a' ≤ c && c ≤ 'f')

/-- Shape test for a `#rrggbb` string. -/
def matchesHashHex6 (s : List Char) : Bool :=
  match s with
  | '#' :: rest => (rest.length == 6) && rest.all isLowerHexDigit
  | _ => false

/-!
### Claim C6
-/

/-- C6 counterexample.  With the defaults rgbmin 240 and rgbmax 125 the
magnitude does not decrease toward rgbmax as the index grows: at a total of
two, the magnitude is already exactly rgbmax at index zero and strictly
increases, moving away from rgbmax, at index one. -/
theorem c6_counterexample :
    mval 240 125 0 2 = 125 ∧ mval 240 125 1 2 = 365 / 2 ∧
    mval 240 125 0 2 < mval 240 125 1 2 := by
  refine ⟨?_, ?_, ?_⟩ <;> norm_num [mval]

/-- C6 amended.  With the defaults rgbmin 240 and rgbmax 125, the magnitude
equals rgbmax at index zero and strictly increases toward rgbmin, staying
below it, as the index approaches the total. -/
theorem c6_magnitude_increases (n i j : ℕ) (hij : i < j) (hjn : j < n) :
    mval 240 125 i n < mval 240 125 j n ∧
    mval 240 125 j n < 240 ∧ mval 240 125 0 n = 125 := by
  have hnn : 0 < n := lt_trans (Nat.lt_of_le_of_lt (Nat.zero_le i) hij) hjn
  have hn : (0 : ℚ) < n := by exact_mod_cast hnn
  have hijq : (i : ℚ) < j := by exact_mod_cast hij
  have hjq : (j : ℚ) < n := by exact_mod_cast hjn
  have hinv : (0 : ℚ) < (n : ℚ)⁻¹ := inv_pos.mpr hn
  have hji : ((n : ℚ) - j) * (n : ℚ)⁻¹ < ((n : ℚ) - i) * (n : ℚ)⁻¹ :=
    mul_lt_mul_of_pos_right (by linarith) hinv
  refine ⟨?_, ?_, ?_⟩
  · unfold mval
    rw [div_eq_mul_inv, div_eq_mul_inv]
    nlinarith
  · unfold mval
    rw [div_eq_mul_inv]
    have hpos : 0 < ((n : ℚ) - j) * (n : ℚ)⁻¹ := mul_pos (by linarith) hinv
    nlinarith
  · unfold mval
    rw [Nat.cast_zero, sub_zero, mul_div_assoc, div_self (ne_of_gt hn)]
    norm_num

/-- Witness for the amended C6 theorem at concrete indices. -/
theorem c6_magnitude_witness :
    mval 240 125 0 3 < mval 240 125 1 3 ∧
    mval 240 125 1 3 < 240 ∧ mval 240 125 0 3 = 125 :=
  c6_magnitude_increases 3 0 1 (by norm_num) (by norm_num)

/-!
### Claim C7
-/

/-- Bounds on the magnitude for an index below the total. -/
theorem mval_bounds (n i : ℕ) (hn : 1 ≤ n) (hi : i < n) :
    125 ≤ mval 240 125 i n ∧ mval 240 125 i n < 240 := by
  have hn0 : (0 : ℚ) < n := by exact_mod_cast Nat.lt_of_lt_of_le Nat.zero_lt_one hn
  have hi1 : (i : ℚ) + 1 ≤ n := by exact_mod_cast hi
  have hi0 : (0 : ℚ) ≤ i := by positivity
  have hinv : (0 : ℚ) < (n : ℚ)⁻¹ := inv_pos.mpr hn0
  have h1 : ((n : ℚ) - i) * (n : ℚ)⁻¹ ≤ 1 := by
    rw [← mul_inv_cancel₀ (ne_of_gt hn0)]
    exact mul_le_mul_of_nonneg_right (by linarith) (le_of_lt hinv)
  have h2 : 0 < ((n : ℚ) - i) * (n : ℚ)⁻¹ := mul_pos (by linarith) hinv
  unfold mval
  rw [div_eq_mul_inv]
  constructor <;> nlinarith

/-- The hue components always come from the two default concentrations. -/
theorem hue_cases (i : ℕ) :
    ((hue i).1 = 19 / 20 ∨ (hue i).1 = 1 / 2) ∧
    ((hue i).2.1 = 19 / 20 ∨ (hue i).2.1 = 1 / 2) ∧
    ((hue i).2.2 = 19 / 20 ∨ (hue i).2.2 = 1 / 2) := by
  have h6 : i % 6 = 0 ∨ i % 6 = 1 ∨ i % 6 = 2 ∨ i % 6 = 3 ∨ i % 6 = 4 ∨ i % 6 = 5 := by
    omega
  rcases h6 with h | h | h | h | h | h <;> simp [hue, h]

/-- A channel computed from a hue component and an in-range magnitude lies in
the assertion range. -/
theorem channel_bounds (r m : ℚ) (hr : r = 19 / 20 ∨ r = 1 / 2)
    (hm1 : 125 ≤ m) (hm2 : m < 240) : 0 ≤ pyInt (r * m) ∧ pyInt (r * m) < 256 := by
  have h0 : 0 ≤ r * m := by rcases hr with h | h <;> subst h <;> nlinarith
  have h1 : r * m < 256 := by rcases hr with h | h <;> subst h <;> nlinarith
  unfold pyInt
  rw [if_pos h0]
  refine ⟨Int.floor_nonneg.mpr h0, ?_⟩
  have : ((⌊r * m⌋ : ℚ)) < 256 := lt_of_le_of_lt (Int.floor_le _) h1
  exact_mod_cast this

/-- Hexadecimal digit characters are in the lowercase hex class. -/
theorem hexDigit_ok (k : ℕ) (h : k < 16) : isLowerHexDigit (hexDigit k) = true := by
  interval_cases k <;> decide

/-- Two-digit rendering of an in-range value is two lowercase hex digits. -/
theorem hex2_ok (k : ℕ) :
    (hex2 k).length = 2 ∧ (hex2 k).all isLowerHexDigit = true := by
  refine ⟨rfl, ?_⟩
  simp only [hex2, List.all_cons, List.all_nil, Bool.and_true]
  rw [hexDigit_ok _ (Nat.mod_lt _ (by norm_num)),
      hexDigit_ok _ (Nat.mod_lt _ (by norm_num))]
  rfl

/-- C7.  For a positive total and an index below it, the default `choose`
passes its range assertions with every channel in zero to 255, returns a
string of the shape hash followed by six lowercase hexadecimal digits, and a
call with a total of zero behaves exactly as a call with a total of one. -/
theorem c7_choose_safe (n i : ℕ) (hn : 1 ≤ n) (hi : i < n) :
    (0 ≤ (chooseChannels i n).1 ∧ (chooseChannels i n).1 ≤ 255) ∧
    (0 ≤ (chooseChannels i n).2.1 ∧ (chooseChannels i n).2.1 ≤ 255) ∧
    (0 ≤ (chooseChannels i n).2.2 ∧ (chooseChannels i n).2.2 ≤ 255) ∧
    (∃ s, choose i n = some s ∧ matchesHashHex6 s = true) ∧
    choose i 0 = choose i 1 := by
  have hne : ¬ n = 0 := by omega
  have hm := mval_bounds n i hn hi
  have hh := hue_cases i
  have hr := channel_bounds _ _ hh.1 hm.1 hm.2
  have hg := channel_bounds _ _ hh.2.1 hm.1 hm.2
  have hb := channel_bounds _ _ hh.2.2 hm.1 hm.2
  have hch : chooseChannels i n =
      (pyInt ((hue i).1 * mval 240 125 i n),
       pyInt ((hue i).2.1 * mval 240 125 i n),
       pyInt ((hue i).2.2 * mval 240 125 i n)) := by
    simp [chooseChannels, hne]
  have e1 : (chooseChannels i n).1 = pyInt ((hue i).1 * mval 240 125 i n) := by
    rw [hch]
  have e2 : (chooseChannels i n).2.1 = pyInt ((hue i).2.1 * mval 240 125 i n) := by
    rw [hch]
  have e3 : (chooseChannels i n).2.2 = pyInt ((hue i).2.2 * mval 240 125 i n) := by
    rw [hch]
  refine ⟨?_, ?_, ?_, ?_, rfl⟩
  · rw [e1]
    exact ⟨hr.1, by omega⟩
  · rw [e2]
    exact ⟨hg.1, by omega⟩
  · rw [e3]
    exact ⟨hb.1, by omega⟩
  · have hcond : 0 ≤ (chooseChannels i n).1 ∧ (chooseChannels i n).1 < 256 ∧
        0 ≤ (chooseChannels i n).2.1 ∧ (chooseChannels i n).2.1 < 256 ∧
        0 ≤ (chooseChannels i n).2.2 ∧ (chooseChannels i n).2.2 < 256 := by
      rw [hch]
      exact ⟨hr.1, hr.2, hg.1, hg.2, hb.1, hb.2⟩
    refine ⟨_, by rw [choose, if_pos hcond], ?_⟩
    show matchesHashHex6 ('#' :: (hex2 (chooseChannels i n).1.toNat ++
        hex2 (chooseChannels i n).2.1.toNat ++
        hex2 (chooseChannels i n).2.2.toNat)) = true
    simp only [matchesHashHex6]
    rw [Bool.and_eq_true, List.all_append, List.all_append]
    refine ⟨?_, ?_⟩
    · simp [List.length_append, (hex2_ok _).1]
    · rw [Bool.and_eq_true, Bool.and_eq_true]
      exact ⟨⟨(hex2_ok _).2, (hex2_ok _).2⟩, (hex2_ok _).2⟩

/-- Witness for C7 at a concrete index and total. -/
theorem c7_choose_witness :
    (0 ≤ (chooseChannels 2 5).1 ∧ (chooseChannels 2 5).1 ≤ 255) ∧
    (0 ≤ (chooseChannels 2 5).2.1 ∧ (chooseChannels 2 5).2.1 ≤ 255) ∧
    (0 ≤ (chooseChannels 2 5).2.2 ∧ (chooseChannels 2 5).2.2 ≤ 255) ∧
    (∃ s, choose 2 5 = some s ∧ matchesHashHex6 s = true) ∧
    choose 2 0 = choose 2 1 :=
  c7_choose_safe 5 2 (by norm_num) (by norm_num)

/-!
## Nick colour table (src/irclog2html.py, `NickColourizer.nickchange`)

The `nick_colour` dictionary is modelled as an association list with unique
keys; lookup, removal and insertion follow Python dict semantics
(`get`, `pop`, assignment).
-/

/-- Association list standing for the nick-to-colour dictionary. -/
abbrev Dict := List (List Char × List Char)

/-- Dictionary lookup. -/
def dictLookup (k : List Char) : Dict → Option (List Char)
  | [] => none
  | (k2, v) :: rest => if k2 = k then some v else dictLookup k rest

/-- Dictionary removal, `pop`. -/
def dictPop (k : List Char) (d : Dict) : Dict :=
  d.filter (fun p => decide (p.1 ≠ k))

/-- Dictionary insertion or overwrite. -/
def dictInsert (k v : List Char) : Dict → Dict
  | [] => [(k, v)]
  | (k2, v2) :: rest =>
      if k2 = k then (k, v) :: rest else (k2, v2) :: dictInsert k v rest

/-- The `nickchange` method: when the old nick has a colour, pop it and store
it under the new nick (the right-hand side, the pop, runs first); otherwise
do nothing. -/
def nickchange (d : Dict) (oldn newn : List Char) : Dict :=
  match dictLookup oldn d with
  | some colour => dictInsert newn colour (dictPop oldn d)
  | none => d

/-- Lookup after insertion at the same key. -/
theorem dictLookup_insert (k v : List Char) (d : Dict) :
    dictLookup k (dictInsert k v d) = some v := by
  induction d with
  | nil => simp [dictInsert, dictLookup]
  | cons p rest ih =>
    obtain ⟨k2, v2⟩ := p
    by_cases h : k2 = k
    · simp [dictInsert, h, dictLookup]
    · simp [dictInsert, h, dictLookup, ih]

/-- Lookup after insertion at a different key. -/
theorem dictLookup_insert_ne (k k2 v : List Char) (d : Dict) (h : k ≠ k2) :
    dictLookup k (dictInsert k2 v d) = dictLookup k d := by
  have h2 : ¬ k2 = k := fun hc => h hc.symm
  induction d with
  | nil => simp [dictInsert, dictLookup, h2]
  | cons p rest ih =>
    obtain ⟨k3, v3⟩ := p
    by_cases h3 : k3 = k2
    · subst h3
      simp [dictInsert, dictLookup, h2]
    · simp only [dictInsert, if_neg h3]
      by_cases h4 : k3 = k
      · simp [dictLookup, h4]
      · simp [dictLookup, h4, ih]

/-- Lookup after popping the same key. -/
theorem dictLookup_pop (k : List Char) (d : Dict) :
    dictLookup k (dictPop k d) = none := by
  unfold dictPop
  simp only [ne_eq, decide_not]
  induction d with
  | nil => rfl
  | cons p rest ih =>
    obtain ⟨k2, v2⟩ := p
    by_cases h : k2 = k
    · subst h
      simp [List.filter_cons, dictLookup, ih]
    · simp [List.filter_cons, h, dictLookup, ih]

/-!
### Claim C8
-/

/-- C8 counterexample.  Renaming a nick to itself violates the claim: the old
name has an assigned colour, yet after the rename the old name is still a
known key (it is the new name), so the clause that the old name is no longer
known fails. -/
theorem c8_counterexample :
    dictLookup "a".data [("a".data, "#ff0000".data)] = some ("#ff0000".data) ∧
    dictLookup "a".data
        (nickchange [("a".data, "#ff0000".data)] "a".data "a".data) ≠ none := by
  constructor
  · rfl
  · decide

/-- C8 amended.  If the old name has an assigned colour, the rename makes the
new name map to that colour, and, provided the old and new names differ, the
old name is no longer a known key; if the old name has no assigned colour the
rename leaves the table unchanged. -/
theorem c8_nickchange_spec (d : Dict) (o n c : List Char) :
    (dictLookup o d = some c →
       dictLookup n (nickchange d o n) = some c ∧
       (o ≠ n → dictLookup o (nickchange d o n) = none)) ∧
    (dictLookup o d = none → nickchange d o n = d) := by
  constructor
  · intro h
    constructor
    · unfold nickchange
      rw [h]
      exact dictLookup_insert n c (dictPop o d)
    · intro hne
      unfold nickchange
      rw [h, dictLookup_insert_ne o n c (dictPop o d) hne]
      exact dictLookup_pop o d
  · intro h
    unfold nickchange
    rw [h]

/-- Witness for C8 at a concrete table and rename. -/
theorem c8_nickchange_witness :
    dictLookup "b".data
        (nickchange [("a".data, "#00ff00".data)] "a".data "b".data) =
      some ("#00ff00".data) ∧
    dictLookup "a".data
        (nickchange [("a".data, "#00ff00".data)] "a".data "b".data) = none := by
  have h := (c8_nickchange_spec [("a".data, "#00ff00".data)] "a".data "b".data
      ("#00ff00".data)).1 (by decide)
  exact ⟨h.1, h.2 (by decide)⟩

/-!
## Date extraction (src/src/irclog2html/logs2html.py, `DATE_REGEXP` and
`LogFile.__init__`)

The pattern is a greedy skip followed by four digits, an optional dash, two
digits, an optional dash and two digits.  The greedy skip means the date
groups start at the last position where the digit pattern matches.  The
optional dashes are deterministic: when a dash is present, not consuming it
cannot help, because a digit would be required where the dash stands.
-/

/-- Numeric value of a digit character. -/
def digitVal (c : Char) : ℕ := c.toNat - 48

/-- Two digits with their value. -/
def twoDigitsVal : List Char → Option (ℕ × List Char)
  | a :: b :: rest =>
      if a.isDigit && b.isDigit then some (10 * digitVal a + digitVal b, rest)
      else none
  | _ => none

/-- Four digits with their value. -/
def fourDigitsVal : List Char → Option (ℕ × List Char)
  | a :: b :: c :: d :: rest =>
      if a.isDigit && b.isDigit && c.isDigit && d.isDigit then
        some (1000 * digitVal a + 100 * digitVal b + 10 * digitVal c + digitVal d, rest)
      else none
  | _ => none

/-- Optional dash. -/
def skipDash : List Char → List Char
  | '-' :: r => r
  | r => r

/-- Date groups of `DATE_REGEXP` anchored at the current position. -/
def dateGroupsAt (l : List Char) : Option (ℕ × ℕ × ℕ) :=
  match fourDigitsVal l with
  | none => none
  | some (y, r1) =>
      match twoDigitsVal (skipDash r1) with
      | none => none
      | some (mo, r2) =>
          match twoDigitsVal (skipDash r2) with
          | none => none
          | some (d, _) => some (y, mo, d)

/-- Match of `DATE_REGEXP` on a whole name: the greedy leading skip selects
the last position where the anchored pattern matches. -/
def lastDate : List Char → Option (ℕ × ℕ × ℕ)
  | [] => none
  | c :: rest =>
      match lastDate rest with
      | some g => some g
      | none => dateGroupsAt (c :: rest)

/-- The `os.path.basename` of a POSIX path: everything after the last
slash. -/
def basename (p : List Char) : List Char :=
  (p.reverse.takeWhile (fun c => c ≠ '/')).reverse

/-- Leap-year rule of the proleptic Gregorian calendar used by
`datetime.date`. -/
def isLeap (y : ℕ) : Bool :=
  decide (y % 4 = 0) && (!decide (y % 100 = 0) || decide (y % 400 = 0))

/-- Days in a month as checked by `datetime.date`. -/
def daysInMonth (y m : ℕ) : ℕ :=
  if m = 2 then (if isLeap y then 29 else 28)
  else if m = 4 ∨ m = 6 ∨ m = 9 ∨ m = 11 then 30
  else 31

/-- Validity check of `datetime.date(year, month, day)`: out-of-range values
raise `ValueError`. -/
def validDate (y mo d : ℕ) : Bool :=
  decide (1 ≤ y) && decide (y ≤ 9999) && decide (1 ≤ mo) && decide (mo ≤ 12) &&
  decide (1 ≤ d) && decide (d ≤ daysInMonth y mo)

/-!
## Build scheduler (src/src/irclog2html/logs2html.py)

`LogFile` objects, discovery, staleness, newness caching and the
regeneration loop of `process`.  The filesystem is an oracle mapping an
artifact name to its modification time when it exists; source modification
times come from a second oracle (`os.stat` on the source, which `glob`
guarantees to exist).  The per-object `_newfile` memoization of
`LogFile.newfile` is an explicit cache keyed by the position of the file in
the processed list, mirroring caching on object identity.
-/

/-- One successfully constructed `LogFile`. -/
structure LF where
  name : List Char
  date : ℕ × ℕ × ℕ
deriving DecidableEq, Repr

/-- Errors raised while constructing a `LogFile`: the typed application
`Error` when the name has no date pattern, and the `ValueError` that
`datetime.date` raises on out-of-range components (the source does not catch
the latter). -/
inductive SchedError where
  | missingDate (filename : List Char)
  | badDateValue (filename : List Char)
deriving DecidableEq, Repr

/-- Construction of a `LogFile` from a filename, `LogFile.__init__`. -/
def mkLogFile (nm : List Char) : Except SchedError LF :=
  match lastDate (basename nm) with
  | none => .error (.missingDate nm)
  | some (y, mo, d) =>
      if validDate y mo d then .ok ⟨nm, (y, mo, d)⟩
      else .error (.badDateValue nm)

/-- Discovery, `find_log_files`: construct a `LogFile` per discovered name in
order; the first exception aborts the whole comprehension. -/
def findLogFiles : List (List Char) → Except SchedError (List LF)
  | [] => .ok []
  | nm :: rest =>
      match mkLogFile nm with
      | .error e => .error e
      | .ok f =>
          match findLogFiles rest with
          | .error e => .error e
          | .ok fs => .ok (f :: fs)

/-- Lexicographic order on names, the Python string comparison used by
`sorted(key=attrgetter(filename))`. -/
def leLC : List Char → List Char → Bool
  | [], _ => true
  | _ :: _, [] => false
  | a :: as, b :: bs => if a < b then true else if b < a then false else leLC as bs

/-- Insertion step of a stable insertion sort. -/
def insertLF (f : LF) : List LF → List LF
  | [] => [f]
  | g :: gs => if leLC f.name g.name then f :: g :: gs else g :: insertLF f gs

/-- Stable sort of the discovered files by name, ascending. -/
def sortLF (l : List LF) : List LF := l.foldr insertLF []

/-- Modelled from the spec: `pick_output_filename` lives in the packaged
`irclog2html` module, which is not under src/; the spec says the rendered
artifact name is derived deterministically from the source filename, so it is
modelled as the basename with the `.html` extension appended. -/
def pick_output_filename (b : List Char) : List Char := b ++ ".html".data

/-- Filesystem oracle for rendered artifacts: name to modification time. -/
abbrev Fs := List Char → Option ℤ

/-- Newness cache keyed by position in the processed list. -/
abbrev Cache := ℕ → Option Bool

/-- Artifact name checked by `uptodate` and `newfile`:
`self.filename + ".html"`. -/
def htmlOf (f : LF) : List Char := f.name ++ ".html".data

/-- The `uptodate` method: false when the artifact is missing, otherwise the
strict comparison of modification times. -/
def uptodateF (mt : List Char → ℤ) (fs : Fs) (f : LF) : Bool :=
  match fs (htmlOf f) with
  | none => false
  | some hm => decide (mt f.name < hm)

/-- Uncached newness: the artifact does not exist. -/
def isNewF (fs : Fs) (f : LF) : Bool := (fs (htmlOf f)).isNone

/-- The `newfile` method: answer from the cache if present, otherwise check
the filesystem once and remember the answer. -/
def checkNew (fs : Fs) (c : Cache) (k : ℕ) (f : LF) : Bool × Cache :=
  match c k with
  | some b => (b, c)
  | none =>
      let b := isNewF fs f
      (b, fun j => if j = k then some b else c j)

/-- The `next and next.newfile()` part of the condition: next sits at
position `k - 1` of the newest-first list and is absent for the first
position. -/
def nextStep (files : List LF) (fs : Fs) (c : Cache) (k : ℕ) : Bool × Cache :=
  match k with
  | 0 => (false, c)
  | k1 + 1 =>
      match files[k1]? with
      | some nf => checkNew fs c k1 nf
      | none => (false, c)

/-- The regeneration condition of `process` for the file at position `k` of
the newest-first list, with the short-circuit evaluation order of the source:
force, then `not uptodate`, then `prev and prev.newfile()` where prev sits at
position `k + 1`, then the next check.  Returns the decision and the cache as
updated by the `newfile` calls that actually ran. -/
def condFor (force : Bool) (mt : List Char → ℤ) (files : List LF) (fs : Fs)
    (c : Cache) (k : ℕ) (f : LF) : Bool × Cache :=
  if force then (true, c)
  else if uptodateF mt fs f = false then (true, c)
  else
    match files[k + 1]? with
    | some pf =>
        let pn := checkNew fs c (k + 1) pf
        if pn.1 then (true, pn.2)
        else nextStep files fs pn.2 k
    | none => nextStep files fs c k

/-- The loop of `process` over `enumerate(logfiles)` (newest first): evaluate
the condition, and when it holds run `generate`, which first calls
`self.newfile()` to fix the newness flag and then writes the artifact.  The
first argument is the number of remaining positions; the caller passes the
list length, and every step handles exactly one position. -/
def schedLoop (force : Bool) (mt : List Char → ℤ) (genTime : ℤ) (files : List LF) :
    ℕ → ℕ → Fs → Cache → List ℕ → Fs × Cache × List ℕ
  | 0, _, fs, c, regens => (fs, c, regens)
  | todo + 1, k, fs, c, regens =>
      match files[k]? with
      | none => (fs, c, regens)
      | some f =>
          let cc := condFor force mt files fs c k f
          if cc.1 then
            let cc2 := checkNew fs cc.2 k f
            schedLoop force mt genTime files todo (k + 1)
              (fun x => if x = htmlOf f then some genTime else fs x)
              cc2.2 (regens ++ [k])
          else schedLoop force mt genTime files todo (k + 1) fs cc.2 regens

/-- One scheduler pass over a newest-first file list. -/
def runSched (force : Bool) (mt : List Char → ℤ) (genTime : ℤ) (files : List LF)
    (fs0 : Fs) : Fs × Cache × List ℕ :=
  schedLoop force mt genTime files files.length 0 fs0 (fun _ => none) []

/-- Observable outcome of a whole `process` run (regenerated positions, final
filesystem, latest-shortcut target, index page written).  The stylesheet copy
carries no information relevant to the claims and is omitted. -/
structure RunOut where
  regens : List ℕ
  fsFinal : Fs
  latest : Option (List Char)
  indexWritten : Bool

/-- The `process` function: discover (aborting on the first bad filename),
sort ascending by name, reverse to newest first, run the regeneration loop,
point the latest shortcut at the newest file, write the index. -/
def processRun (force : Bool) (mt : List Char → ℤ) (genTime : ℤ)
    (names : List (List Char)) (fs0 : Fs) : Except SchedError RunOut :=
  match findLogFiles names with
  | .error e => .error e
  | .ok discovered =>
      let files := (sortLF discovered).reverse
      let res := runSched force mt genTime files fs0
      .ok { regens := res.2.2
            fsFinal := res.1
            latest := files.head?.map (fun f => pick_output_filename (basename f.name))
            indexWritten := true }

/-- Date acceptability of one discovered name: either no pattern match (the
typed error case) or a constructible date. -/
def dateOk (nm : List Char) : Bool :=
  match lastDate (basename nm) with
  | none => true
  | some (y, mo, d) => validDate y mo d

/-!
### Claim C9
-/

/-- Discovery aborts when some name has no date pattern. -/
theorem findLogFiles_err (names : List (List Char))
    (h : ∃ nm ∈ names, lastDate (basename nm) = none) :
    ∃ e, findLogFiles names = .error e := by
  induction names with
  | nil =>
    obtain ⟨nm, hmem, _⟩ := h
    cases hmem
  | cons nm0 rest ih =>
    obtain ⟨nm, hmem, hnone⟩ := h
    rcases List.mem_cons.mp hmem with heq | htail
    · subst heq
      refine ⟨.missingDate nm, ?_⟩
      unfold findLogFiles mkLogFile
      rw [hnone]
    · cases hmk : mkLogFile nm0 with
      | error e =>
        refine ⟨e, ?_⟩
        unfold findLogFiles
        rw [hmk]
      | ok f =>
        obtain ⟨e, he⟩ := ih ⟨nm, htail, hnone⟩
        refine ⟨e, ?_⟩
        unfold findLogFiles
        rw [hmk, he]

/-- When every matched date is constructible, the abort is the typed
missing-date error of some discovered name. -/
theorem findLogFiles_err_typed (names : List (List Char))
    (h : ∃ nm ∈ names, lastDate (basename nm) = none)
    (h2 : ∀ nm ∈ names, dateOk nm = true) :
    ∃ nm, nm ∈ names ∧ findLogFiles names = .error (.missingDate nm) := by
  induction names with
  | nil =>
    obtain ⟨nm, hmem, _⟩ := h
    cases hmem
  | cons nm0 rest ih =>
    cases hld : lastDate (basename nm0) with
    | none =>
      refine ⟨nm0, List.mem_cons_self nm0 rest, ?_⟩
      unfold findLogFiles mkLogFile
      rw [hld]
    | some g =>
      obtain ⟨y, mo, d⟩ := g
      have hv : validDate y mo d = true := by
        have := h2 nm0 (List.mem_cons_self nm0 rest)
        unfold dateOk at this
        rw [hld] at this
        exact this
      have hmk : mkLogFile nm0 = .ok ⟨nm0, (y, mo, d)⟩ := by
        unfold mkLogFile
        rw [hld]
        simp [hv]
      have hrest : ∃ nm ∈ rest, lastDate (basename nm) = none := by
        obtain ⟨nm, hmem, hnone⟩ := h
        rcases List.mem_cons.mp hmem with heq | htail
        · subst heq
          rw [hnone] at hld
          cases hld
        · exact ⟨nm, htail, hnone⟩
      obtain ⟨nm, hmem, he⟩ := ih hrest (fun x hx => h2 x (List.mem_cons_of_mem nm0 hx))
      refine ⟨nm, List.mem_cons_of_mem nm0 hmem, ?_⟩
      unfold findLogFiles
      rw [hmk, he]

/-- Whether a run outcome is the abort with the typed application error (the
`Error` raised for a filename without the date pattern); the `ValueError` of
`datetime.date` is a Python builtin, not the typed error. -/
def abortsTyped (r : Except SchedError RunOut) : Bool :=
  match r with
  | .error (.missingDate _) => true
  | _ => false

/-- C9 counterexample.  A discovered directory holding `9999-99-99.log` and
`nodate.log` contains a filename lacking the embedded date pattern, yet the
run does not abort with the typed error: `LogFile` is constructed for
`9999-99-99.log` first, its name matches the date pattern with an
out-of-range month, and the uncaught `ValueError` of `datetime.date` aborts
the run before the typed missing-date error could be raised. -/
theorem c9_counterexample :
    (∃ nm ∈ ["9999-99-99.log".data, "nodate.log".data],
       lastDate (basename nm) = none) ∧
    processRun false (fun _ => 0) 0 ["9999-99-99.log".data, "nodate.log".data]
        (fun _ => none) =
      .error (.badDateValue ("9999-99-99.log".data)) ∧
    abortsTyped (processRun false (fun _ => 0) 0
        ["9999-99-99.log".data, "nodate.log".data] (fun _ => none)) = false := by
  refine ⟨by decide, rfl, rfl⟩

/-- C9 amended.  When a discovered filename lacks the embedded date pattern
the whole run aborts with an error before producing any outcome: nothing is
regenerated, the latest shortcut is not touched and the index is not written
(all of these live only in the success result); and provided every filename
matching the date pattern has a constructible date, the abort is the typed
missing-date error naming a discovered file — otherwise the run still aborts
before any effect, but with the uncaught `ValueError` of the first invalid
date. -/
theorem c9_missing_date_aborts (force : Bool) (mt : List Char → ℤ) (genTime : ℤ)
    (names : List (List Char)) (fs0 : Fs)
    (h : ∃ nm ∈ names, lastDate (basename nm) = none) :
    (∃ e, processRun force mt genTime names fs0 = .error e) ∧
    (∀ out, processRun force mt genTime names fs0 ≠ .ok out) ∧
    ((∀ nm ∈ names, dateOk nm = true) →
       ∃ nm, nm ∈ names ∧
         processRun force mt genTime names fs0 = .error (.missingDate nm)) := by
  obtain ⟨e, he⟩ := findLogFiles_err names h
  have hrun : processRun force mt genTime names fs0 = .error e := by
    unfold processRun
    rw [he]
  refine ⟨⟨e, hrun⟩, ?_, ?_⟩
  · intro out hcontra
    rw [hrun] at hcontra
    cases hcontra
  · intro h2
    obtain ⟨nm, hmem, he2⟩ := findLogFiles_err_typed names h h2
    refine ⟨nm, hmem, ?_⟩
    unfold processRun
    rw [he2]

/-- Witness for C9 on a directory with one undated log name. -/
theorem c9_missing_date_witness :
    ∃ nm, nm ∈ ["nodate.log".data] ∧
      processRun false (fun _ => 0) 0 ["nodate.log".data] (fun _ => none) =
        .error (.missingDate nm) :=
  (c9_missing_date_aborts false (fun _ => 0) 0 ["nodate.log".data] (fun _ => none)
    (by decide)).2.2 (by decide)

/-!
### Claim C4

The theorem relates the operational loop (with its mutable newness cache and
its filesystem writes) to the claimed staleness test stated against the
state at the start of the run.  The invariants say that artifacts of not yet
regenerated files are untouched, that every cache entry holds the initial
newness of its file, and that every regenerated position is cached (its
`generate` call fixed the flag before writing).
-/

/-- Every cache entry stores the initial-filesystem newness of the file at
its position. -/
def CacheOK (fs0 : Fs) (files : List LF) (c : Cache) : Prop :=
  ∀ j b, c j = some b → ∃ f, files[j]? = some f ∧ b = isNewF fs0 f

/-- Artifacts of files not regenerated so far are untouched. -/
def FsOK (fs0 fs : Fs) (files : List LF) (regens : List ℕ) : Prop :=
  ∀ j f, files[j]? = some f → j ∉ regens → fs (htmlOf f) = fs0 (htmlOf f)

/-- Regenerated positions have their newness cached. -/
def RegCached (c : Cache) (regens : List ℕ) : Prop :=
  ∀ j ∈ regens, c j ≠ none

/-- Newness of the chronologically earlier neighbour against the initial
filesystem. -/
def prevBitSpec (fs0 : Fs) (files : List LF) (k : ℕ) : Bool :=
  match files[k + 1]? with
  | some pf => isNewF fs0 pf
  | none => false

/-- Newness of the chronologically later neighbour against the initial
filesystem. -/
def nextBitSpec (fs0 : Fs) (files : List LF) (k : ℕ) : Bool :=
  match k with
  | 0 => false
  | k1 + 1 =>
      match files[k1]? with
      | some nf => isNewF fs0 nf
      | none => false

/-- The staleness test of the claim, evaluated against the state at the start
of the run: the force flag, or the artifact missing or not strictly newer
than the source, or a new chronologically earlier neighbour, or a new
chronologically later neighbour. -/
def specCondB (force : Bool) (mt : List Char → ℤ) (fs0 : Fs) (files : List LF)
    (k : ℕ) : Bool :=
  force ||
  (match files[k]? with
   | some f => !uptodateF mt fs0 f
   | none => false) ||
  prevBitSpec fs0 files k || nextBitSpec fs0 files k

/-- Reduction of the staleness test at an existing position. -/
theorem specCondB_eq (force : Bool) (mt : List Char → ℤ) (fs0 : Fs)
    (files : List LF) (k : ℕ) (f : LF) (hf : files[k]? = some f) :
    specCondB force mt fs0 files k =
      (force || !uptodateF mt fs0 f ||
       prevBitSpec fs0 files k || nextBitSpec fs0 files k) := by
  unfold specCondB
  rw [hf]

/-- Uptodate only looks at the artifact entry. -/
theorem uptodateF_congr (mt : List Char → ℤ) (fs0 fs : Fs) (f : LF)
    (h : fs (htmlOf f) = fs0 (htmlOf f)) :
    uptodateF mt fs f = uptodateF mt fs0 f := by
  unfold uptodateF
  rw [h]

/-- Newness only looks at the artifact entry. -/
theorem isNewF_congr (fs0 fs : Fs) (f : LF)
    (h : fs (htmlOf f) = fs0 (htmlOf f)) : isNewF fs f = isNewF fs0 f := by
  unfold isNewF
  rw [h]

/-- A cached or freshly computed newness check answers the initial newness,
given a sound cache entry or an untouched artifact. -/
theorem checkNew_fst (fs0 fs : Fs) (c : Cache) (k : ℕ) (f : LF)
    (hval : ∀ b, c k = some b → b = isNewF fs0 f)
    (hagree : c k = none → fs (htmlOf f) = fs0 (htmlOf f)) :
    (checkNew fs c k f).1 = isNewF fs0 f := by
  unfold checkNew
  cases hck : c k with
  | some b =>
    show b = isNewF fs0 f
    exact hval b hck
  | none =>
    show isNewF fs f = isNewF fs0 f
    exact isNewF_congr fs0 fs f (hagree hck)

/-- A newness check preserves cache soundness. -/
theorem checkNew_cacheOK (fs0 fs : Fs) (files : List LF) (c : Cache) (k : ℕ)
    (f : LF) (hc : CacheOK fs0 files c) (hf : files[k]? = some f)
    (hagree : c k = none → fs (htmlOf f) = fs0 (htmlOf f)) :
    CacheOK fs0 files (checkNew fs c k f).2 := by
  unfold checkNew
  cases hck : c k with
  | some b =>
    show CacheOK fs0 files c
    exact hc
  | none =>
    show CacheOK fs0 files (fun j => if j = k then some (isNewF fs f) else c j)
    intro j b hj
    have hj2 : (if j = k then some (isNewF fs f) else c j) = some b := hj
    by_cases hjk : j = k
    · rw [if_pos hjk] at hj2
      have hb : isNewF fs f = b := by injection hj2
      subst hjk
      refine ⟨f, hf, ?_⟩
      rw [← hb]
      exact isNewF_congr fs0 fs f (hagree hck)
    · rw [if_neg hjk] at hj2
      exact hc j b hj2

/-- A newness check never erases cache entries. -/
theorem checkNew_mono (fs : Fs) (c : Cache) (k : ℕ) (f : LF) (j : ℕ)
    (h : c j ≠ none) : (checkNew fs c k f).2 j ≠ none := by
  unfold checkNew
  cases hck : c k with
  | some b =>
    show c j ≠ none
    exact h
  | none =>
    show (if j = k then some (isNewF fs f) else c j) ≠ none
    by_cases hjk : j = k
    · rw [if_pos hjk]
      simp
    · rw [if_neg hjk]
      exact h

/-- After a newness check, the checked position is cached. -/
theorem checkNew_self (fs : Fs) (c : Cache) (k : ℕ) (f : LF) :
    (checkNew fs c k f).2 k ≠ none := by
  unfold checkNew
  cases hck : c k with
  | some b =>
    show c k ≠ none
    rw [hck]
    simp
  | none =>
    show (if k = k then some (isNewF fs f) else c k) ≠ none
    rw [if_pos rfl]
    simp

/-- Distinct positions of a list with nodup artifact names have distinct
artifact names. -/
theorem htmlOf_ne (files : List LF) (hnd : (files.map htmlOf).Nodup)
    (j k : ℕ) (fj fk : LF) (hj : files[j]? = some fj) (hk : files[k]? = some fk)
    (hjk : j ≠ k) : htmlOf fj ≠ htmlOf fk := by
  intro he
  have hjq : (files.map htmlOf)[j]? = some (htmlOf fj) := by
    rw [List.getElem?_map, hj]
    rfl
  have hkq : (files.map htmlOf)[k]? = some (htmlOf fk) := by
    rw [List.getElem?_map, hk]
    rfl
  have heq : (files.map htmlOf)[j]? = (files.map htmlOf)[k]? := by
    rw [hjq, hkq, he]
  have hlenj : j < (files.map htmlOf).length := by
    rw [List.length_map]
    exact (List.getElem?_eq_some.mp hj).1
  have hlenk : k < (files.map htmlOf).length := by
    rw [List.length_map]
    exact (List.getElem?_eq_some.mp hk).1
  rcases Nat.lt_trichotomy j k with hjk2 | hjk2 | hjk2
  · exact (List.nodup_iff_getElem?_ne_getElem?.mp hnd j k hjk2 hlenk) heq
  · exact hjk hjk2
  · exact (List.nodup_iff_getElem?_ne_getElem?.mp hnd k j hjk2 hlenj) heq.symm

/-- The next check answers the next bit of the staleness test and preserves
the cache invariants. -/
theorem nextStep_ok (files : List LF) (fs0 fs : Fs) (c : Cache) (k : ℕ)
    (regens : List ℕ) (hfs : FsOK fs0 fs files regens)
    (hc : CacheOK fs0 files c) (hcr : RegCached c regens) :
    (nextStep files fs c k).1 = nextBitSpec fs0 files k ∧
    CacheOK fs0 files (nextStep files fs c k).2 ∧
    RegCached (nextStep files fs c k).2 regens := by
  cases k with
  | zero => exact ⟨rfl, hc, hcr⟩
  | succ k1 =>
    have hred : nextStep files fs c (k1 + 1) =
        (match files[k1]? with
         | some nf => checkNew fs c k1 nf
         | none => (false, c)) := rfl
    have hred2 : nextBitSpec fs0 files (k1 + 1) =
        (match files[k1]? with
         | some nf => isNewF fs0 nf
         | none => false) := rfl
    rw [hred, hred2]
    cases hn : files[k1]? with
    | none => exact ⟨rfl, hc, hcr⟩
    | some nf =>
      have hval : ∀ b, c k1 = some b → b = isNewF fs0 nf := by
        intro b hb
        obtain ⟨g, hg, hbg⟩ := hc k1 b hb
        rw [hn] at hg
        injection hg with hg2
        rw [hbg, hg2]
      have hagree : c k1 = none → fs (htmlOf nf) = fs0 (htmlOf nf) := by
        intro hnone
        have hnot : k1 ∉ regens := by
          intro hin
          exact (hcr k1 hin) hnone
        exact hfs k1 nf hn hnot
      refine ⟨checkNew_fst fs0 fs c k1 nf hval hagree, ?_, ?_⟩
      · exact checkNew_cacheOK fs0 fs files c k1 nf hc hn hagree
      · exact fun j hj => checkNew_mono fs c k1 nf j (hcr j hj)

/-- The condition of `process` answers the staleness test of the claim and
preserves the cache invariants. -/
theorem condFor_ok (force : Bool) (mt : List Char → ℤ) (files : List LF)
    (fs0 fs : Fs) (c : Cache) (k : ℕ) (f : LF) (regens : List ℕ)
    (hf : files[k]? = some f)
    (hlt : ∀ j ∈ regens, j < k)
    (hfs : FsOK fs0 fs files regens)
    (hc : CacheOK fs0 files c)
    (hcr : RegCached c regens) :
    (condFor force mt files fs c k f).1 = specCondB force mt fs0 files k ∧
    CacheOK fs0 files (condFor force mt files fs c k f).2 ∧
    RegCached (condFor force mt files fs c k f).2 regens := by
  have hk : k ∉ regens := fun hin => absurd (hlt k hin) (lt_irrefl k)
  have hag : fs (htmlOf f) = fs0 (htmlOf f) := hfs k f hf hk
  have hup : uptodateF mt fs f = uptodateF mt fs0 f :=
    uptodateF_congr mt fs0 fs f hag
  by_cases hforce : force = true
  · subst hforce
    have hcf : condFor true mt files fs c k f = (true, c) := by
      unfold condFor
      rw [if_pos rfl]
    rw [hcf, specCondB_eq true mt fs0 files k f hf]
    exact ⟨rfl, hc, hcr⟩
  · have hforce2 : force = false := by
      revert hforce
      cases force <;> simp
    subst hforce2
    cases hu : uptodateF mt fs0 f with
    | false =>
      have hcf : condFor false mt files fs c k f = (true, c) := by
        unfold condFor
        rw [if_neg (by simp), if_pos (by rw [hup, hu])]
      rw [hcf, specCondB_eq false mt fs0 files k f hf, hu]
      exact ⟨rfl, hc, hcr⟩
    | true =>
      cases hp : files[k + 1]? with
      | none =>
        have hpb : prevBitSpec fs0 files k = false := by
          unfold prevBitSpec
          rw [hp]
        have hcf : condFor false mt files fs c k f = nextStep files fs c k := by
          unfold condFor
          rw [if_neg (by simp), if_neg (by rw [hup, hu]; simp), hp]
        obtain ⟨h1, h2, h3⟩ := nextStep_ok files fs0 fs c k regens hfs hc hcr
        rw [hcf, specCondB_eq false mt fs0 files k f hf, hu, hpb, h1]
        refine ⟨?_, h2, h3⟩
        rfl
      | some pf =>
        have hpb : prevBitSpec fs0 files k = isNewF fs0 pf := by
          unfold prevBitSpec
          rw [hp]
        have hvalp : ∀ b, c (k + 1) = some b → b = isNewF fs0 pf := by
          intro b hb
          obtain ⟨g, hg, hbg⟩ := hc (k + 1) b hb
          rw [hp] at hg
          injection hg with hg2
          rw [hbg, hg2]
        have hagreep : c (k + 1) = none → fs (htmlOf pf) = fs0 (htmlOf pf) := by
          intro hnone
          have hkp : k + 1 ∉ regens := by
            intro hin
            have := hlt _ hin
            omega

          exact hfs (k + 1) pf hp hkp
        have hfstp := checkNew_fst fs0 fs c (k + 1) pf hvalp hagreep
        have hcachep := checkNew_cacheOK fs0 fs files c (k + 1) pf hc hp hagreep
        have hmonop : RegCached (checkNew fs c (k + 1) pf).2 regens :=
          fun j hj => checkNew_mono fs c (k + 1) pf j (hcr j hj)
        have hcf : condFor false mt files fs c k f =
            (if (checkNew fs c (k + 1) pf).1 = true then
               (true, (checkNew fs c (k + 1) pf).2)
             else nextStep files fs (checkNew fs c (k + 1) pf).2 k) := by
          unfold condFor
          rw [if_neg (by simp), if_neg (by rw [hup, hu]; simp), hp]
        rw [hcf, specCondB_eq false mt fs0 files k f hf, hu, hpb]
        cases hnew : isNewF fs0 pf with
        | true =>
          rw [if_pos (by rw [hfstp]; exact hnew)]
          exact ⟨rfl, hcachep, hmonop⟩
        | false =>
          rw [if_neg (by rw [hfstp, hnew]; simp)]
          obtain ⟨h1, h2, h3⟩ :=
            nextStep_ok files fs0 fs (checkNew fs c (k + 1) pf).2 k regens hfs
              hcachep hmonop
          rw [h1]
          refine ⟨?_, h2, h3⟩
          rfl

/-- Membership in the regeneration list produced by the loop over the
remaining positions, against the staleness test of the claim. -/
theorem schedLoop_mem (force : Bool) (mt : List Char → ℤ) (genTime : ℤ)
    (files : List LF) (fs0 : Fs) (hnd : (files.map htmlOf).Nodup) :
    ∀ (todo k : ℕ) (fs : Fs) (c : Cache) (regens : List ℕ),
      k + todo = files.length →
      (∀ j ∈ regens, j < k) →
      FsOK fs0 fs files regens →
      CacheOK fs0 files c →
      RegCached c regens →
      ∀ k2, (k2 ∈ (schedLoop force mt genTime files todo k fs c regens).2.2 ↔
        (k2 ∈ regens ∨ (k ≤ k2 ∧ k2 < files.length ∧
          specCondB force mt fs0 files k2 = true))) := by
  intro todo
  induction todo with
  | zero =>
    intro k fs c regens harith hlt hfs hc hcr k2
    show k2 ∈ regens ↔ _
    constructor
    · exact fun h => Or.inl h
    · rintro (h | ⟨hk1, hk2, _⟩)
      · exact h
      · omega
  | succ todo ih =>
    intro k fs c regens harith hlt hfs hc hcr k2
    have hklen : k < files.length := by omega
    have hf : files[k]? = some (files[k]) := List.getElem?_eq_getElem hklen
    have hstep : schedLoop force mt genTime files (todo + 1) k fs c regens =
        (if (condFor force mt files fs c k (files[k])).1 then
           schedLoop force mt genTime files todo (k + 1)
             (fun x => if x = htmlOf (files[k]) then some genTime else fs x)
             (checkNew fs (condFor force mt files fs c k (files[k])).2 k
               (files[k])).2
             (regens ++ [k])
         else schedLoop force mt genTime files todo (k + 1) fs
             (condFor force mt files fs c k (files[k])).2 regens) := by
      rw [schedLoop, hf]
    obtain ⟨hcond, hcOK, hcrOK⟩ :=
      condFor_ok force mt files fs0 fs c k (files[k]) regens hf hlt hfs hc hcr
    have hknot : k ∉ regens := fun hin => absurd (hlt k hin) (lt_irrefl k)
    rw [hstep]
    cases hsp : specCondB force mt fs0 files k with
    | true =>
      rw [if_pos (by rw [hcond]; exact hsp)]
      have hagreeK : (condFor force mt files fs c k (files[k])).2 k = none →
          fs (htmlOf (files[k])) = fs0 (htmlOf (files[k])) :=
        fun _ => hfs k (files[k]) hf hknot
      have hc2 : CacheOK fs0 files
          (checkNew fs (condFor force mt files fs c k (files[k])).2 k
            (files[k])).2 :=
        checkNew_cacheOK fs0 fs files _ k (files[k]) hcOK hf hagreeK
      have hcr2 : RegCached
          (checkNew fs (condFor force mt files fs c k (files[k])).2 k
            (files[k])).2 (regens ++ [k]) := by
        intro j hj
        rcases List.mem_append.mp hj with hjr | hjk
        · exact checkNew_mono fs _ k (files[k]) j (hcrOK j hjr)
        · have : j = k := List.mem_singleton.mp hjk
          subst this
          exact checkNew_self fs _ j (files[j])
      have hlt2 : ∀ j ∈ regens ++ [k], j < k + 1 := by
        intro j hj
        rcases List.mem_append.mp hj with hjr | hjk
        · exact Nat.lt_succ_of_lt (hlt j hjr)
        · have : j = k := List.mem_singleton.mp hjk
          omega
      have hfs2 : FsOK fs0
          (fun x => if x = htmlOf (files[k]) then some genTime else fs x)
          files (regens ++ [k]) := by
        intro j fj hj hjnot
        have hjr : j ∉ regens := fun hin =>
          hjnot (List.mem_append.mpr (Or.inl hin))
        have hjk : j ≠ k := fun heq =>
          hjnot (List.mem_append.mpr (Or.inr (by simp [heq])))
        have hne : htmlOf fj ≠ htmlOf (files[k]) :=
          htmlOf_ne files hnd j k fj (files[k]) hj hf hjk
        show (if htmlOf fj = htmlOf (files[k]) then some genTime
              else fs (htmlOf fj)) = fs0 (htmlOf fj)
        rw [if_neg hne]
        exact hfs j fj hj hjr
      rw [ih (k + 1) _ _ (regens ++ [k]) (by omega) hlt2 hfs2 hc2 hcr2 k2]
      constructor
      · rintro (hm | ⟨h1, h2, h3⟩)
        · rcases List.mem_append.mp hm with hm2 | hm2
          · exact Or.inl hm2
          · have : k2 = k := List.mem_singleton.mp hm2
            subst this
            exact Or.inr ⟨le_refl k2, hklen, hsp⟩
        · exact Or.inr ⟨by omega, h2, h3⟩
      · rintro (hm | ⟨h1, h2, h3⟩)
        · exact Or.inl (List.mem_append.mpr (Or.inl hm))
        · by_cases hkk : k2 = k
          · exact Or.inl (List.mem_append.mpr (Or.inr (by simp [hkk])))
          · exact Or.inr ⟨by omega, h2, h3⟩
    | false =>
      rw [if_neg (by rw [hcond, hsp]; simp)]
      rw [ih (k + 1) fs _ regens (by omega)
          (fun j hj => Nat.lt_succ_of_lt (hlt j hj)) hfs hcOK hcrOK k2]
      constructor
      · rintro (hm | ⟨h1, h2, h3⟩)
        · exact Or.inl hm
        · exact Or.inr ⟨by omega, h2, h3⟩
      · rintro (hm | ⟨h1, h2, h3⟩)
        · exact Or.inl hm
        · by_cases hkk : k2 = k
          · subst hkk
            rw [hsp] at h3
            cases h3
          · exact Or.inr ⟨by omega, h2, h3⟩

/-- C4.  In a scheduler run over the newest-first file list (with distinct
artifact names), a position is regenerated exactly when the staleness test of
the claim holds for it against the state at the start of the run: the force
flag, or its artifact missing or not strictly newer than its source, or its
chronologically earlier neighbour new, or its chronologically later neighbour
new, where new means the artifact was absent when first checked, which the
cache makes equal to absence at the start of the run. -/
theorem c4_regeneration_iff (force : Bool) (mt : List Char → ℤ) (genTime : ℤ)
    (files : List LF) (fs0 : Fs) (hnd : (files.map htmlOf).Nodup)
    (k : ℕ) (hk : k < files.length) :
    k ∈ (runSched force mt genTime files fs0).2.2 ↔
      specCondB force mt fs0 files k = true := by
  unfold runSched
  rw [schedLoop_mem force mt genTime files fs0 hnd files.length 0 fs0
      (fun _ => none) [] (by omega)
      (fun j hj => absurd hj (List.not_mem_nil j))
      (fun j f hj hnj => rfl) (fun j b hb => nomatch hb)
      (fun j hj => absurd hj (List.not_mem_nil j)) k]
  constructor
  · rintro (hm | ⟨_, _, h⟩)
    · cases hm
    · exact h
  · intro h
    exact Or.inr ⟨Nat.zero_le k, hk, h⟩

/-- Witness for C4: two files, newest first; the newer file is up to date but
its chronologically earlier neighbour has no artifact yet, so the newer file
is regenerated for link propagation. -/
theorem c4_regeneration_witness :
    0 ∈ (runSched false (fun _ => (10 : ℤ)) 100
          [⟨"b.log".data, (2005, 1, 2)⟩, ⟨"a.log".data, (2005, 1, 1)⟩]
          (fun x => if x = "b.log.html".data then some 20 else none)).2.2 :=
  (c4_regeneration_iff false (fun _ => (10 : ℤ)) 100
      [⟨"b.log".data, (2005, 1, 2)⟩, ⟨"a.log".data, (2005, 1, 1)⟩]
      (fun x => if x = "b.log.html".data then some 20 else none)
      (by decide) 0 (by decide)).mpr (by decide)

/-!
## On-demand serving (src/src/irclog2html/irclogserver.py, `application`)

Only the request path dispatch is modelled (form parsing and the byte-level
body are irrelevant to the claims).  `parse_path` guarantees the dispatched
path contains no slash, so joining with the log directory and taking the
basename inside `LogFile` leaves the path itself.  The rendering pipeline of
`dynamic_log` past the `LogFile` construction and the open call comes from
the packaged `irclog2html` module, which is not under src/; following the
spec (LogConverter writes through the renderer and is total) it is modelled
as always succeeding.
-/

/-- Python exceptions crossing the handler boundary. -/
inductive Exc where
  | appError
  | ioError
  | valueError
deriving DecidableEq, Repr

/-- Exception raised by `LogFile(path)`, if any: the typed `Error` when the
basename has no date pattern, `ValueError` when the matched digits are not a
constructible date. -/
def mkLogFileExc (nm : List Char) : Option Exc :=
  match lastDate (basename nm) with
  | none => some .appError
  | some (y, mo, d) => if validDate y mo d then none else some .valueError

/-- The `dynamic_log` helper: construct the `LogFile`, then open the source
for reading; rendering itself is modelled from the spec as total. -/
def dynamicLog (readable : List Char → Bool) (srcPath : List Char) :
    Except Exc Unit :=
  match mkLogFileExc srcPath with
  | some e => .error e
  | none => if readable srcPath then .ok () else .error .ioError

/-- Responses of the handler. -/
inductive Resp where
  | fileContents
  | listingPage
  | rendered
  | notFound
deriving DecidableEq, Repr

/-- The dispatch of `application` for a request path (single-channel setup):
serve the cached artifact when the open succeeds; otherwise the index page
runs the directory listing (whose failures nothing catches), a path ending in
`.html` is rendered on the fly with `Error` and `IOError` degraded to a
not-found response, and anything else is not found.  An `error` result is an
exception propagating out of the handler. -/
def serveGet (cached readable : List Char → Bool) (listing : Except Exc Unit)
    (path : List Char) : Except Exc Resp :=
  if cached path then .ok .fileContents
  else if path = "index.html".data then
    match listing with
    | .ok _ => .ok .listingPage
    | .error e => .error e
  else if ".html".data.isSuffixOf path then
    match dynamicLog readable (path.take (path.length - 5)) with
    | .ok _ => .ok .rendered
    | .error .appError => .ok .notFound
    | .error .ioError => .ok .notFound
    | .error .valueError => .error .valueError
  else .ok .notFound

/-!
### Claim C10
-/

/-- C10 counterexample.  The uncached request for `9999-99-99.log.html` maps
to the source `9999-99-99.log`, whose name matches the date pattern with an
out-of-range month, so `LogFile` raises `ValueError`; the handler only
catches the typed `Error` and `IOError`, and the exception propagates out of
the request. -/
theorem c10_counterexample :
    serveGet (fun _ => false) (fun _ => true) (.ok ())
        ("9999-99-99.log.html".data) = .error .valueError := by
  rfl

/-- C10 amended.  For an uncached request path ending in `.html` other than
the index page, every failure of the typed application error class or of the
I/O class raised while mapping the path to a source or rendering it degrades
to a not-found response, and the only exception the handler can propagate is
the `ValueError` of a date pattern with out-of-range components. -/
theorem c10_serve_catches (cached readable : List Char → Bool)
    (listing : Except Exc Unit) (path : List Char)
    (hs : ".html".data.isSuffixOf path = true)
    (hidx : path ≠ "index.html".data)
    (hc : cached path = false) :
    (∀ e, dynamicLog readable (path.take (path.length - 5)) = .error e →
       e ≠ .valueError →
       serveGet cached readable listing path = .ok .notFound) ∧
    (∀ e, serveGet cached readable listing path = .error e → e = .valueError) := by
  have hserve : serveGet cached readable listing path =
      (match dynamicLog readable (path.take (path.length - 5)) with
       | .ok _ => .ok .rendered
       | .error .appError => .ok .notFound
       | .error .ioError => .ok .notFound
       | .error .valueError => .error .valueError) := by
    unfold serveGet
    rw [hc, if_neg (by simp), if_neg hidx, if_pos hs]
  constructor
  · intro e hdyn hne
    rw [hserve, hdyn]
    cases e with
    | appError => rfl
    | ioError => rfl
    | valueError => exact absurd rfl hne
  · intro e hres
    rw [hserve] at hres
    cases hdyn : dynamicLog readable (path.take (path.length - 5)) with
    | ok u =>
      rw [hdyn] at hres
      cases hres
    | error e2 =>
      rw [hdyn] at hres
      cases e2 with
      | appError => cases hres
      | ioError => cases hres
      | valueError => cases hres with | refl => rfl

/-- Witness for the amended C10 on an uncached undated page. -/
theorem c10_serve_witness :
    serveGet (fun _ => false) (fun _ => false) (.ok ())
        ("nodate.log.html".data) = .ok .notFound :=
  (c10_serve_catches (fun _ => false) (fun _ => false) (.ok ())
      ("nodate.log.html".data) (by decide) (by decide) rfl).1
    .appError rfl (by decide)

end Irclog
